import Mathlib

/-!
Verification of the DynamicTerrain height-field terrain plugin.

The definitions below are a shallow embedding of the C++ sources:
`UHeightMap` (HeightMap.cpp), `ATerrain` (Terrain.cpp) and the noise
headers (Noise.h).  Machine `float` values are modelled by `ℚ` where the
code only adds, subtracts and multiplies, and by `ℝ` where the code
normalizes vectors (square roots).  `int32`/`uint32` values are modelled
by `ℤ`/`ℕ` with the source's guards reproduced explicitly.
-/

namespace DynamicTerrain

/-! ### HeightMap data model (UHeightMap, HeightMap.cpp)

`UHeightMap` owns `WidthX`, `WidthY`, `MaxHeight` and the dense row-major
array `MapData` of `WidthX * WidthY` floats. -/

structure HeightMap where
  widthX : ℕ
  widthY : ℕ
  maxHeight : ℤ
  mapData : List ℚ
deriving DecidableEq, Repr

namespace HeightMap

/-- Embedding of `TArray::SetNumZeroed(NewNum, true)`: if the array shrinks,
elements are removed from the end; if it grows, the *new* elements are
zero-initialized and the existing elements are kept. -/
def setNumZeroed (l : List ℚ) (n : ℕ) : List ℚ :=
  if n ≤ l.length then l.take n else l ++ List.replicate (n - l.length) 0

/-- `UHeightMap::Resize(X, Y, Z)`: early-out when any argument is `<= 0`,
otherwise store the new widths and max height and call
`MapData.SetNumZeroed(WidthX * WidthY, true)`. -/
def Resize (m : HeightMap) (X Y Z : ℤ) : HeightMap :=
  if X ≤ 0 ∨ Y ≤ 0 ∨ Z ≤ 0 then m
  else { widthX := X.toNat, widthY := Y.toNat, maxHeight := Z,
         mapData := setNumZeroed m.mapData (X.toNat * Y.toNat) }

/-- `UHeightMap::GetHeight(X, Y)`: unchecked read of `MapData[Y * WidthX + X]`.
An index outside the array is undefined behaviour in the C++; the model
returns `0` there, and every claim below is settled on in-array indices only. -/
def GetHeight (m : HeightMap) (x y : ℕ) : ℚ :=
  m.mapData.getD (y * m.widthX + x) 0

/-- `UHeightMap::SetHeight(X, Y, Height)`: unchecked write of
`MapData[Y * WidthX + X]`. -/
def SetHeight (m : HeightMap) (x y : ℕ) (v : ℚ) : HeightMap :=
  { m with mapData := m.mapData.set (y * m.widthX + x) v }

/-- `UHeightMap::BPGetHeight(X, Y)`: return `0` when `X < 0 || Y < 0`,
otherwise forward to the unchecked `GetHeight`. -/
def BPGetHeight (m : HeightMap) (x y : ℤ) : ℚ :=
  if x < 0 ∨ y < 0 then 0 else GetHeight m x.toNat y.toNat

end HeightMap

/-! ### Mesh section triangles (ComponentData::Allocate and
ATerrain::GenerateMeshSection, Terrain.cpp)

`GenerateMeshSection` lays out an `n × n` vertex grid (`n = ComponentSize`,
vertex `(x, y)` at flat index `y * n + x`) and, when `CreateTriangles` is set,
writes six indices per quad at `Triangles[(y * polygons + x) * 6]` with
`polygons = n - 1`. -/

/-- Buffer lengths produced by `ComponentData::Allocate(Size)`. -/
structure ComponentDataShape where
  verticesLen : ℕ
  uvLen : ℕ
  normalsLen : ℕ
  tangentsLen : ℕ
  trianglesLen : ℕ
deriving DecidableEq, Repr

/-- `ComponentData::Allocate(Size)`: `Size*Size` entries for vertices, UVs,
normals and tangents, and `(Size-1)*(Size-1)*6` triangle indices. -/
def ComponentDataAllocate (n : ℕ) : ComponentDataShape :=
  ⟨n * n, n * n, n * n, n * n, (n - 1) * (n - 1) * 6⟩

/-- First triangle the generator emits for quad `(x, y)`:
`Triangles[i] = x + y*n`, `Triangles[i+1] = 1 + x + y*n`,
`Triangles[i+2] = 1 + x + (y+1)*n`. -/
def tri1 (n x y : ℕ) : ℕ × ℕ × ℕ :=
  (x + y * n, 1 + x + y * n, 1 + x + (y + 1) * n)

/-- Second triangle the generator emits for quad `(x, y)`:
`Triangles[i+3] = x + y*n`, `Triangles[i+4] = 1 + x + (y+1)*n`,
`Triangles[i+5] = x + (y+1)*n`. -/
def tri2 (n x y : ℕ) : ℕ × ℕ × ℕ :=
  (x + y * n, 1 + x + (y + 1) * n, x + (y + 1) * n)

/-- The three vertex indices of a triangle, in emission order. -/
def triVertexIndices (t : ℕ × ℕ × ℕ) : List ℕ :=
  [t.1, t.2.1, t.2.2]

/-- The six triangle indices written for quad `(x, y)`, in source order. -/
def quadIndices (n x y : ℕ) : List ℕ :=
  [x + y * n, 1 + x + y * n, 1 + x + (y + 1) * n,
   x + y * n, 1 + x + (y + 1) * n, x + (y + 1) * n]

/-- The whole triangle index buffer, quads in the source's loop order
(`y` outer, `x` inner, quad `(x, y)` written at offset `(y*polygons + x)*6`). -/
def sectionTriangles (n : ℕ) : List ℕ :=
  (List.range (n - 1)).flatMap fun y =>
    (List.range (n - 1)).flatMap fun x => quadIndices n x y

/-- The same buffer viewed as a list of triangles (index triples). -/
def sectionTriangleList (n : ℕ) : List (ℕ × ℕ × ℕ) :=
  (List.range (n - 1)).flatMap fun y =>
    (List.range (n - 1)).flatMap fun x => [tri1 n x y, tri2 n x y]

/-- World-plane (X, Y) position the generator assigns to the vertex at flat
index `i`: `Vertices[i] = FVector(x - world_offset_x, world_offset_y - y, h)`
with `x = i % n`, `y = i / n` and constant per-section offsets. -/
def vertexPlanePos (n : ℕ) (ox oy : ℚ) (i : ℕ) : ℚ × ℚ :=
  ((i % n : ℕ) - ox, oy - ((i / n : ℕ) : ℚ))

/-- Twice the signed area of a planar triangle (positive = counter-clockwise
in the standard orientation); equal values across triangles mean consistent
winding. -/
def signedDoubleArea (a b c : ℚ × ℚ) : ℚ :=
  (b.1 - a.1) * (c.2 - a.2) - (b.2 - a.2) * (c.1 - a.1)

/-! ### ATerrain::Update (Terrain.cpp)

`Update` walks all sections (`x` outer, `y` inner, flat index `y * XWidth + x`),
rebuilds geometry of each marked section with `GenerateMeshSection(x, y,
ComponentBuffer, false)` (no triangle regeneration), and regenerates the
border mesh the first time a marked section lies on the terrain edge
(`update_border` latch). -/

inductive UpdateEvent where
  | section (x y : ℕ) (createTriangles : Bool)
  | border
deriving DecidableEq, Repr

/-- The edge test of `ATerrain::Update`:
`x == 0 || y == 0 || x == XWidth - 1 || y == YWidth - 1`. -/
def onEdge (W H x y : ℕ) : Bool :=
  x = 0 || y = 0 || x = W - 1 || y = H - 1

/-- One iteration of the `Update` loop body at cell `(x, y)`: state is the
`update_border` latch plus the emitted events. -/
def updateCell (W H : ℕ) (marks : ℕ → Bool) (st : Bool × List UpdateEvent)
    (xy : ℕ × ℕ) : Bool × List UpdateEvent :=
  if marks (xy.2 * W + xy.1) then
    let evs := st.2 ++ [UpdateEvent.section xy.1 xy.2 false]
    if st.1 && onEdge W H xy.1 xy.2 then (false, evs ++ [UpdateEvent.border])
    else (st.1, evs)
  else st

/-- The iteration order of `ATerrain::Update`: `x` outer, `y` inner. -/
def updateOrder (W H : ℕ) : List (ℕ × ℕ) :=
  (List.range W).flatMap fun x => (List.range H).map fun y => (x, y)

/-- The events one `ATerrain::Update` call performs, given the marked-section
array `UpdateMesh` (as a predicate on flat indices). -/
def updateRun (W H : ℕ) (marks : ℕ → Bool) : List UpdateEvent :=
  ((updateOrder W H).foldl (updateCell W H marks) (true, [])).2

/-- Number of border regenerations among a list of update events. -/
def borderCount (evs : List UpdateEvent) : ℕ :=
  evs.countP fun e => match e with
    | UpdateEvent.border => true
    | _ => false

/-! ### ATerrain::RebuildMesh worker pool size (Terrain.cpp) -/

/-- The thread count of `ATerrain::RebuildMesh`:
`uint16 num_threads = 4; if (XWidth * YWidth < num_threads) num_threads =
XWidth * YWidth;` — the constant `4` is hardcoded and the `WorkerThreads`
property is not read. -/
def numThreads (totalSections : ℕ) : ℕ :=
  if totalSections < 4 then totalSections else 4

/-- The claim's pool-size formula, following its words:
`min(configuredThreads, totalSections)` with `configuredThreads` the
terrain's configured `WorkerThreads` property. -/
def claimPoolSize (configuredThreads totalSections : ℕ) : ℕ :=
  min configuredThreads totalSections

/-! ### ATerrain::RebuildMesh scheduling loop (Terrain.cpp, lines 353-429)

The polling loop drives `ComponentBuilder` worker threads over all sections.
The `ComponentBuilder` class itself is not among the sources; modelled from
the spec: each worker accepts one section via `Build(x, y)`, eventually
finishes it, and then reports idle with the finished data available through
`GetData` and the section's flat index `y * XWidth + x` through
`GetSection`.  The shared `(section_x, section_y)` counter advances in
row-major order (`++section_x`, wrapping into `++section_y`), which equals
stepping the flat index `section_y * XWidth + section_x` by one
(`sectionAdvance_linear` below), so the model tracks the flat index
`assigned` = number of sections handed out so far.  Which worker finishes
first is the environment's choice, so scheduler steps form a relation: one
step = the controller observes one idle worker holding a result, hands the
result to its mesh slot (`delivered`), and either assigns the next
row-major section or retires the worker. -/

/-- The `(x, y)` section-counter increment of `RebuildMesh`:
`++section_x; if (section_x >= XWidth) { section_x = 0; ++section_y; }`. -/
def sectionAdvance (W : ℕ) (xy : ℕ × ℕ) : ℕ × ℕ :=
  if W ≤ xy.1 + 1 then (0, xy.2 + 1) else (xy.1 + 1, xy.2)

/-- One worker: its currently assigned flat section index and the full
sequence of sections it has been assigned, in order. -/
structure SchedWorker where
  sec : ℕ
  hist : List ℕ
deriving DecidableEq, Repr

/-- Scheduler state: `assigned` = sections handed out so far, the live
workers, the retired workers, and the sections delivered to mesh slots in
delivery order. -/
structure SchedState where
  assigned : ℕ
  workers : List SchedWorker
  retired : List SchedWorker
  delivered : List ℕ
deriving DecidableEq, Repr

/-- The state after the start-up loop of `RebuildMesh`: worker `i` of
`num_threads` is built and given section `i` (the counter advances before
every `Build` except the first). -/
def schedInit (W H : ℕ) : SchedState :=
  { assigned := numThreads (W * H),
    workers := (List.range (numThreads (W * H))).map fun j => ⟨j, [j]⟩,
    retired := [],
    delivered := [] }

/-- One observed completion in the polling loop: the controller sees worker
`i` idle with a result, delivers its section, advances the shared counter,
and either queues the next section on that worker (`section_y < YWidth`,
i.e. `assigned < T`) or removes the worker (`builders.RemoveAt(i)`). -/
inductive SchedStep (T : ℕ) : SchedState → SchedState → Prop where
  | assign (s : SchedState) (i : ℕ) (h : i < s.workers.length)
      (hlt : s.assigned < T) :
      SchedStep T s
        { assigned := s.assigned + 1,
          workers := s.workers.set i
            ⟨s.assigned, (s.workers.get ⟨i, h⟩).hist ++ [s.assigned]⟩,
          retired := s.retired,
          delivered := s.delivered ++ [(s.workers.get ⟨i, h⟩).sec] }
  | retire (s : SchedState) (i : ℕ) (h : i < s.workers.length)
      (hge : T ≤ s.assigned) :
      SchedStep T s
        { assigned := s.assigned,
          workers := s.workers.eraseIdx i,
          retired := s.retired ++ [s.workers.get ⟨i, h⟩],
          delivered := s.delivered ++ [(s.workers.get ⟨i, h⟩).sec] }

/-- The scheduler invariant: the counter counts deliveries plus live
workers and never passes the section total; outstanding plus delivered
sections are exactly the first `assigned` sections, each once; every live
worker's section was handed out, its history is strictly increasing in
row-major order and ends at its current section; retired histories are
strictly increasing; and workers only run out after the last section was
handed out. -/
structure SchedInv (T : ℕ) (s : SchedState) : Prop where
  count : s.assigned = s.delivered.length + s.workers.length
  le : s.assigned ≤ T
  perm : (s.delivered ++ s.workers.map SchedWorker.sec).Perm
    (List.range s.assigned)
  wsec : ∀ w ∈ s.workers, w.sec < s.assigned
  whist : ∀ w ∈ s.workers,
    w.hist.Chain' (· < ·) ∧ w.hist.getLast? = some w.sec
  rhist : ∀ w ∈ s.retired, w.hist.Chain' (· < ·)
  empty_done : s.workers = [] → T ≤ s.assigned

/-- Termination measure of the polling loop. -/
def schedMeasure (T : ℕ) (s : SchedState) : ℕ :=
  (T - s.delivered.length) + s.workers.length

/-! ### Normals and tangents (ATerrain::GenerateMeshSection, Terrain.cpp)

Float 3-vectors are modelled over `ℝ` because normalization takes a square
root. -/

/-- `FVector`, modelled over `ℝ`. -/
structure Vec3 where
  x : ℝ
  y : ℝ
  z : ℝ

/-- `FVector::Normalize()` (tolerance `SMALL_NUMBER = 1e-8`): scale by the
inverse length when the squared length exceeds the tolerance, otherwise
leave the vector unchanged. -/
noncomputable def vecNormalize (v : Vec3) : Vec3 :=
  if 1 / 100000000 < v.x ^ 2 + v.y ^ 2 + v.z ^ 2 then
    ⟨v.x / Real.sqrt (v.x ^ 2 + v.y ^ 2 + v.z ^ 2),
     v.y / Real.sqrt (v.x ^ 2 + v.y ^ 2 + v.z ^ 2),
     v.z / Real.sqrt (v.x ^ 2 + v.y ^ 2 + v.z ^ 2)⟩
  else v

/-- `FVector::CrossProduct(A, B)`. -/
noncomputable def vecCross (a b : Vec3) : Vec3 :=
  ⟨a.y * b.z - a.z * b.y, a.z * b.x - a.x * b.z, a.x * b.y - a.y * b.x⟩

/-- The normal/tangent computation of `ATerrain::GenerateMeshSection`
(Terrain.cpp, lines 506-528) at one interior grid cell, with the heights
abstracted as `h`: `s01 = h(x-1, y)`, `s21 = h(x+1, y)`, `s10 = h(x, y-1)`,
`s12 = h(x, y+1)`, `vx = (2, 0, s21 - s01)`, `vy = (0, 2, s10 - s12)`, both
normalized in place; the outputs are `CrossProduct(vx, vy)` and `vx`. -/
noncomputable def codeNormalTangent (h : ℤ → ℤ → ℝ) (x y : ℤ) : Vec3 × Vec3 :=
  let s01 := h (x - 1) y
  let s21 := h (x + 1) y
  let s10 := h x (y - 1)
  let s12 := h x (y + 1)
  let vx := vecNormalize ⟨2, 0, s21 - s01⟩
  let vy := vecNormalize ⟨0, 2, s10 - s12⟩
  (vecCross vx vy, vx)

/-- The claim's computation, following its words: central differences
`Δx = h(x+1,y) - h(x-1,y)` and `Δy = h(x,y+1) - h(x,y-1)`, tangent vectors
`(2, 0, Δx)` and `(0, 2, Δy)`, both normalized; the normal is the cross
product of the two normalized tangents and the tangent output is the
normalized first tangent. -/
noncomputable def claimNormalTangent (h : ℤ → ℤ → ℝ) (x y : ℤ) :
    Vec3 × Vec3 :=
  let dx := h (x + 1) y - h (x - 1) y
  let dy := h x (y + 1) - h x (y - 1)
  let t1 := vecNormalize ⟨2, 0, dx⟩
  let t2 := vecNormalize ⟨0, 2, dy⟩
  (vecCross t1 t2, t1)

/-- The amended claim's computation: as the claim, except that the second
tangent vector is `(0, 2, -Δy)`. -/
noncomputable def claimNormalTangentAmended (h : ℤ → ℤ → ℝ) (x y : ℤ) :
    Vec3 × Vec3 :=
  let dx := h (x + 1) y - h (x - 1) y
  let dy := h x (y + 1) - h x (y - 1)
  let t1 := vecNormalize ⟨2, 0, dx⟩
  let t2 := vecNormalize ⟨0, 2, -dy⟩
  (vecCross t1 t2, t1)

/-- A concrete height field: `1` at cell `(·, 1)`, `0` elsewhere. -/
noncomputable def cellBump : ℤ → ℤ → ℝ :=
  fun _ y => if y = 1 then 1 else 0

/-! ### ATerrain::GenerateBorderSection (Terrain.cpp, lines 621-742)

The border/skirt build appends, for each of the four sides of the payload
area (`width_x = WidthX - 2`, `width_y = WidthY - 2`), two vertices per edge
cell (bottom at `z = -200`, top at the terrain height of the edge cell), a
fixed per-side normal and tangent, two UVs, and two triangles per quad,
offsetting each side's triangle indices by the vertex count written so far. -/

structure BorderData where
  vertices : List (ℚ × ℚ × ℚ)
  uv0 : List (ℚ × ℚ)
  normals : List (ℚ × ℚ × ℚ)
  tangents : List (ℚ × ℚ × ℚ)
  triangles : List ℕ
deriving DecidableEq, Repr

/-- The `-X` side of the border (first block of `GenerateBorderSection`);
its triangle indices are written without an offset. -/
def borderEdgeNegX (m : HeightMap) : BorderData :=
  let wx := m.widthX - 2
  let wy := m.widthY - 2
  let worldX : ℚ := ((wx : ℚ) - 1) / 2
  let worldY : ℚ := ((wy : ℚ) - 1) / 2
  { vertices := (List.range wy).flatMap fun y =>
      [(-worldX, worldY - y, -200), (-worldX, worldY - y, m.GetHeight 1 (y + 1))],
    uv0 := (List.range wy).flatMap fun y =>
      [(-200, (y : ℚ)), (m.GetHeight 1 (y + 1), (y : ℚ))],
    normals := (List.range wy).flatMap fun _ => [(-1, 0, 0), (-1, 0, 0)],
    tangents := (List.range wy).flatMap fun _ => [(0, 0, 1), (0, 0, 1)],
    triangles := (List.range (wy - 1)).flatMap fun y =>
      [y * 2, 1 + y * 2, 1 + (y + 1) * 2,
       y * 2, 1 + (y + 1) * 2, (y + 1) * 2] }

/-- The `+X` side of the border; `base` is `Data.Vertices.Num()` at entry. -/
def borderEdgePosX (m : HeightMap) (base : ℕ) : BorderData :=
  let wx := m.widthX - 2
  let wy := m.widthY - 2
  let worldX : ℚ := ((wx : ℚ) - 1) / 2
  let worldY : ℚ := ((wy : ℚ) - 1) / 2
  { vertices := (List.range wy).flatMap fun y =>
      [(worldX, worldY - y, -200), (worldX, worldY - y, m.GetHeight wx (y + 1))],
    uv0 := (List.range wy).flatMap fun y =>
      [(-200, (y : ℚ)), (m.GetHeight wx (y + 1), (y : ℚ))],
    normals := (List.range wy).flatMap fun _ => [(1, 0, 0), (1, 0, 0)],
    tangents := (List.range wy).flatMap fun _ => [(0, 0, 1), (0, 0, 1)],
    triangles := (List.range (wy - 1)).flatMap fun y =>
      [base + 1 + (y + 1) * 2, base + 1 + y * 2, base + y * 2,
       base + (y + 1) * 2, base + 1 + (y + 1) * 2, base + y * 2] }

/-- The `+Y` side of the border; `base` is `Data.Vertices.Num()` at entry. -/
def borderEdgePosY (m : HeightMap) (base : ℕ) : BorderData :=
  let wx := m.widthX - 2
  let wy := m.widthY - 2
  let worldX : ℚ := ((wx : ℚ) - 1) / 2
  let worldY : ℚ := ((wy : ℚ) - 1) / 2
  { vertices := (List.range wx).flatMap fun x =>
      [(-worldX + x, worldY, -200), (-worldX + x, worldY, m.GetHeight (x + 1) 1)],
    uv0 := (List.range wx).flatMap fun x =>
      [((x : ℚ), -200), ((x : ℚ), m.GetHeight (x + 1) 1)],
    normals := (List.range wx).flatMap fun _ => [(0, 1, 0), (0, 1, 0)],
    tangents := (List.range wx).flatMap fun _ => [(1, 0, 0), (1, 0, 0)],
    triangles := (List.range (wx - 1)).flatMap fun x =>
      [base + 1 + (x + 1) * 2, base + 1 + x * 2, base + x * 2,
       base + (x + 1) * 2, base + 1 + (x + 1) * 2, base + x * 2] }

/-- The `-Y` side of the border; `base` is `Data.Vertices.Num()` at entry. -/
def borderEdgeNegY (m : HeightMap) (base : ℕ) : BorderData :=
  let wx := m.widthX - 2
  let wy := m.widthY - 2
  let worldX : ℚ := ((wx : ℚ) - 1) / 2
  let worldY : ℚ := ((wy : ℚ) - 1) / 2
  { vertices := (List.range wx).flatMap fun x =>
      [(-worldX + x, -worldY, -200),
       (-worldX + x, -worldY, m.GetHeight (x + 1) wy)],
    uv0 := (List.range wx).flatMap fun x =>
      [((x : ℚ), -200), ((x : ℚ), m.GetHeight (x + 1) wy)],
    normals := (List.range wx).flatMap fun _ => [(0, -1, 0), (0, -1, 0)],
    tangents := (List.range wx).flatMap fun _ => [(1, 0, 0), (1, 0, 0)],
    triangles := (List.range (wx - 1)).flatMap fun x =>
      [base + x * 2, base + 1 + x * 2, base + 1 + (x + 1) * 2,
       base + x * 2, base + 1 + (x + 1) * 2, base + (x + 1) * 2] }

/-- `ATerrain::GenerateBorderSection(Data, true)` on a fresh buffer: the four
sides appended in source order (`-X`, `+X`, `+Y`, `-Y`), each side's triangle
indices offset by the vertex count written before it. -/
def GenerateBorderSection (m : HeightMap) : BorderData :=
  let wx := m.widthX - 2
  let wy := m.widthY - 2
  let e1 := borderEdgeNegX m
  let e2 := borderEdgePosX m (2 * wy)
  let e3 := borderEdgePosY m (2 * wy + 2 * wy)
  let e4 := borderEdgeNegY m (2 * wy + 2 * wy + 2 * wx)
  { vertices := e1.vertices ++ e2.vertices ++ e3.vertices ++ e4.vertices,
    uv0 := e1.uv0 ++ e2.uv0 ++ e3.uv0 ++ e4.uv0,
    normals := e1.normals ++ e2.normals ++ e3.normals ++ e4.normals,
    tangents := e1.tangents ++ e2.tangents ++ e3.tangents ++ e4.tangents,
    triangles := e1.triangles ++ e2.triangles ++ e3.triangles ++ e4.triangles }

/-- The claim's per-side description of the skirt: `2 * len` vertices in
bottom/top pairs (bottom at the fixed `z = -200`, top at the terrain height
of the edge cell), `(len - 1) * 2` triangles (hence `(len-1)*2*3` indices),
and one fixed normal for every vertex of the side. -/
def borderEdgeClaim (d : BorderData) (len : ℕ) (nrm : ℚ × ℚ × ℚ)
    (cellHeight : ℕ → ℚ) : Prop :=
  d.vertices.length = 2 * len ∧
  d.normals.length = 2 * len ∧
  (∀ v ∈ d.normals, v = nrm) ∧
  d.triangles.length = (len - 1) * 2 * 3 ∧
  ∀ j, j < len →
    (d.vertices[2 * j]?).map (fun v => v.2.2) = some (-200) ∧
    (d.vertices[2 * j + 1]?).map (fun v => v.2.2) = some (cellHeight j)

/-! ### Noise generators (Noise.h)

Only the class declarations of `GradientNoise`, `ValueNoise` and
`PlasmaNoise` are among the sources (Noise.h); the construction and
sampling implementations (Noise.cpp) are not.  The definitions in this
section are therefore modelled from the spec: each generator owns a
width×height grid of per-cell state derived deterministically from an
integer seed, `scale(sample_width, sample_height)` fixes an affine mapping
between the sample resolution and the native grid resolution, and sampling
is a pure function of the grid state and the coordinates. -/

/-- Modelled from the spec: the seeded pseudo-random stream standing in for
the missing noise implementation's RNG (a linear congruential generator;
the spec fixes only that the state is derived deterministically from the
integer seed). -/
def noiseRng (state : ℕ) : ℕ := (1103515245 * state + 12345) % 2147483648

/-- The `n`-th draw of the stream seeded with `seed`. -/
def noiseRngAt (seed n : ℕ) : ℕ := noiseRng^[n + 1] seed

/-- A pseudo-random rational in `[0, 1)` from the seeded stream. -/
def noiseValue01 (seed n : ℕ) : ℚ := (noiseRngAt seed n : ℚ) / 2147483648

/-- Perlin smoothstep fade `f(t) = 3t² - 2t³` (Noise.h). -/
def fade (t : ℚ) : ℚ := 3 * t ^ 2 - 2 * t ^ 3

/-- Linear interpolation `lerp(t, a, b)` (Noise.h). -/
def lerpQ (t a b : ℚ) : ℚ := a + t * (b - a)

/-- Modelled from the spec: the unit gradient vector of grid cell `(x, y)`
for a `GradientNoise` of width `w`, drawn deterministically from the seed
(a rational point of the unit circle). -/
def gradAt (seed w x y : ℕ) : ℚ × ℚ :=
  let t : ℚ := 2 * noiseValue01 seed (y * w + x) - 1
  ((1 - t ^ 2) / (1 + t ^ 2), 2 * t / (1 + t ^ 2))

/-- Modelled from the spec: `GradientNoise(width, height, seed)` plus the
state set later by `scale`. -/
structure GradientNoise where
  width : ℕ
  height : ℕ
  seed : ℕ
  scaleX : ℚ
  scaleY : ℚ
deriving DecidableEq, Repr

/-- The constructor `GradientNoise(_width, _height, seed)`; `scale_x` and
`scale_y` start at `0` (Noise.h base class). -/
def GradientNoise.make (w h seed : ℕ) : GradientNoise := ⟨w, h, seed, 0, 0⟩

/-- Modelled from the spec: `scale(sample_width, sample_height)` sets the
affine mapping from sample space to the native grid. -/
def GradientNoise.scale (g : GradientNoise) (sw sh : ℕ) : GradientNoise :=
  { g with scaleX := ((g.width : ℚ) - 1) / sw,
           scaleY := ((g.height : ℚ) - 1) / sh }

/-- `getGradient(x, y)`. -/
def GradientNoise.getGradient (g : GradientNoise) (x y : ℕ) : ℚ × ℚ :=
  gradAt g.seed g.width x y

/-- Modelled from the spec: `perlin(x, y)` — locate the surrounding grid
cell, form the dot products of the four corner gradients with the offset
vectors to the sample point, and blend them bilinearly with the fade
curve on both axes. -/
def GradientNoise.perlin (g : GradientNoise) (x y : ℚ) : ℚ :=
  let px := x * g.scaleX
  let py := y * g.scaleY
  let x0 := (⌊px⌋).toNat
  let y0 := (⌊py⌋).toNat
  let fx := px - ⌊px⌋
  let fy := py - ⌊py⌋
  let d00 := (g.getGradient x0 y0).1 * fx + (g.getGradient x0 y0).2 * fy
  let d10 := (g.getGradient (x0 + 1) y0).1 * (fx - 1) +
    (g.getGradient (x0 + 1) y0).2 * fy
  let d01 := (g.getGradient x0 (y0 + 1)).1 * fx +
    (g.getGradient x0 (y0 + 1)).2 * (fy - 1)
  let d11 := (g.getGradient (x0 + 1) (y0 + 1)).1 * (fx - 1) +
    (g.getGradient (x0 + 1) (y0 + 1)).2 * (fy - 1)
  lerpQ (fade fy) (lerpQ (fade fx) d00 d10) (lerpQ (fade fx) d01 d11)

/-- Modelled from the spec: the diamond-square (midpoint displacement) value
grid of `PlasmaNoise`, by recursion on the refinement level: level `0` is a
seeded 2×2 grid; each level doubles the resolution, keeps the even-indexed
points, and sets each new point to the average of its diagonal/orthogonal
neighbours plus a pseudo-random offset whose amplitude halves per level. -/
def plasmaGrid (seed : ℕ) : ℕ → ℕ → ℕ → ℚ
  | 0 => fun i j => noiseValue01 seed (j * 2 + i)
  | k + 1 => fun i j =>
      let p := plasmaGrid seed k
      let r := (2 * noiseValue01 seed
        (((k + 1) * 1000003 + j) * 1000003 + i) - 1) / 2 ^ (k + 1)
      if i % 2 = 0 ∧ j % 2 = 0 then p (i / 2) (j / 2)
      else if i % 2 = 1 ∧ j % 2 = 1 then
        (p (i / 2) (j / 2) + p (i / 2 + 1) (j / 2) + p (i / 2) (j / 2 + 1) +
          p (i / 2 + 1) (j / 2 + 1)) / 4 + r
      else if i % 2 = 1 then
        (p (i / 2) (j / 2) + p (i / 2 + 1) (j / 2)) / 2 + r
      else
        (p (i / 2) (j / 2) + p (i / 2) (j / 2 + 1)) / 2 + r

/-- Modelled from the spec: `PlasmaNoise(size, seed)` — `size` drives the
recursion depth — plus the state set later by `scale`. -/
structure PlasmaNoise where
  size : ℕ
  seed : ℕ
  scaleX : ℚ
  scaleY : ℚ
deriving DecidableEq, Repr

/-- The constructor `PlasmaNoise(size, seed)`. -/
def PlasmaNoise.make (size seed : ℕ) : PlasmaNoise := ⟨size, seed, 0, 0⟩

/-- Native grid width of the refined plasma grid: `2^size + 1`. -/
def PlasmaNoise.width (p : PlasmaNoise) : ℕ := 2 ^ p.size + 1

/-- `getValue(x, y)` on the refined grid. -/
def PlasmaNoise.getValue (p : PlasmaNoise) (x y : ℕ) : ℚ :=
  plasmaGrid p.seed p.size x y

/-- Modelled from the spec: `scale(sample_width, sample_height)`. -/
def PlasmaNoise.scale (p : PlasmaNoise) (sw sh : ℕ) : PlasmaNoise :=
  { p with scaleX := ((p.width : ℚ) - 1) / sw,
           scaleY := ((p.width : ℚ) - 1) / sh }

/-- Cubic interpolation `curp(t, a[4])` through four samples (Noise.h). -/
def curp (t a0 a1 a2 a3 : ℚ) : ℚ :=
  a1 + (t * (a2 - a0 + t * (2 * a0 - 5 * a1 + 4 * a2 - a3 +
    t * (3 * (a1 - a2) + a3 - a0)))) / 2

/-- Modelled from the spec: `cubic(x, y)` — bicubic interpolation over the
4×4 grid neighbourhood of the scaled sample point. -/
def PlasmaNoise.cubic (p : PlasmaNoise) (x y : ℚ) : ℚ :=
  let px := x * p.scaleX
  let py := y * p.scaleY
  let x1 := (⌊px⌋).toNat
  let y1 := (⌊py⌋).toNat
  let fx := px - ⌊px⌋
  let fy := py - ⌊py⌋
  let row := fun dy : ℕ =>
    curp fx (p.getValue (x1 - 1) (y1 - 1 + dy)) (p.getValue x1 (y1 - 1 + dy))
      (p.getValue (x1 + 1) (y1 - 1 + dy)) (p.getValue (x1 + 2) (y1 - 1 + dy))
  curp fy (row 0) (row 1) (row 2) (row 3)

/-! ## Theorems -/

/-- Row-major flat index of an in-bounds cell is inside the payload array. -/
theorem index_lt_of_bounds {W H x y : ℕ} (hx : x < W) (hy : y < H) :
    y * W + x < W * H := by
  have h1 : y * W + x < (y + 1) * W := by
    rw [Nat.succ_mul]
    exact Nat.add_lt_add_left hx _
  have h2 : (y + 1) * W ≤ H * W := Nat.mul_le_mul_right W hy
  exact lt_of_lt_of_le h1 (le_of_le_of_eq h2 (Nat.mul_comm H W))

/-- Row-major flat indexing is injective on in-bounds cells. -/
theorem index_inj {W x x' y y' : ℕ} (hx : x < W) (hx' : x' < W)
    (h : y' * W + x' = y * W + x) : x' = x ∧ y' = y := by
  have hW : 0 < W := lt_of_le_of_lt (Nat.zero_le x) hx
  have hmod : ∀ a b : ℕ, b < W → (a * W + b) % W = b := by
    intro a b hb
    rw [Nat.mul_comm, Nat.mul_add_mod, Nat.mod_eq_of_lt hb]
  have hdiv : ∀ a b : ℕ, b < W → (a * W + b) / W = a := by
    intro a b hb
    rw [Nat.mul_comm, Nat.mul_add_div hW, Nat.div_eq_of_lt hb, Nat.add_zero]
  constructor
  · have := congrArg (· % W) h
    simpa [hmod _ _ hx, hmod _ _ hx'] using this
  · have := congrArg (· / W) h
    simpa [hdiv _ _ hx, hdiv _ _ hx'] using this

/-- Observational description of `TArray::SetNumZeroed`: the result has the
requested length, keeps existing elements at indices below both lengths, and
zero-fills the appended tail. -/
theorem setNumZeroed_spec (l : List ℚ) (n : ℕ) :
    (HeightMap.setNumZeroed l n).length = n ∧
    (∀ i, i < l.length → i < n →
      (HeightMap.setNumZeroed l n).getD i 0 = l.getD i 0) ∧
    (∀ i, l.length ≤ i → i < n → (HeightMap.setNumZeroed l n).getD i 0 = 0) := by
  unfold HeightMap.setNumZeroed
  by_cases h : n ≤ l.length
  · rw [if_pos h]
    refine ⟨by rw [List.length_take]; omega, fun i _ hin => ?_, fun i hl hn => ?_⟩
    · rw [List.getD_eq_getElem?_getD, List.getD_eq_getElem?_getD,
        List.getElem?_take, if_pos hin]
    · omega
  · rw [if_neg h]
    push_neg at h
    refine ⟨by rw [List.length_append, List.length_replicate]; omega,
      fun i hil _ => ?_, fun i hl hn => ?_⟩
    · rw [List.getD_eq_getElem?_getD, List.getD_eq_getElem?_getD,
        List.getElem?_append, if_pos hil]
    · rw [List.getD_eq_getElem?_getD, List.getElem?_append_right hl]
      have : (List.replicate (n - l.length) (0 : ℚ))[i - l.length]? = some 0 := by
        simp only [List.getElem?_replicate]
        rw [if_pos (by omega)]
      rw [this]
      rfl

/-- C5, counterexample: the claim says a positive `resize` leaves every cell
zero-initialized, discarding prior contents; on the 1×1 field holding `5`,
`Resize 2 1 1` produces the array `[5, 0]`, retaining the prior value. -/
theorem c5_resize_counterexample :
    (HeightMap.Resize ⟨1, 1, 1, [5]⟩ 2 1 1).mapData = [5, 0] ∧
    (HeightMap.Resize ⟨1, 1, 1, [5]⟩ 2 1 1).mapData ≠ List.replicate 2 0 ∧
    (HeightMap.Resize ⟨1, 1, 1, [5]⟩ 2 1 1).GetHeight 0 0 = 5 := by
  refine ⟨?_, ?_, ?_⟩ <;> decide

/-- C5, amended: `Resize` with a nonpositive width is a no-op; with positive
arguments it resizes the array to exactly `x*y` cells, zero-initializing only
the cells appended beyond the previous length while retaining the prior values
below it. -/
theorem c5_resize_amended (m : HeightMap) (X Y Z : ℤ) :
    ((X ≤ 0 ∨ Y ≤ 0) → m.Resize X Y Z = m) ∧
    (0 < X → 0 < Y → 0 < Z →
      (m.Resize X Y Z).widthX = X.toNat ∧
      (m.Resize X Y Z).widthY = Y.toNat ∧
      (m.Resize X Y Z).mapData.length = X.toNat * Y.toNat ∧
      (∀ i, i < m.mapData.length → i < X.toNat * Y.toNat →
        (m.Resize X Y Z).mapData.getD i 0 = m.mapData.getD i 0) ∧
      (∀ i, m.mapData.length ≤ i → i < X.toNat * Y.toNat →
        (m.Resize X Y Z).mapData.getD i 0 = 0)) := by
  constructor
  · intro h
    unfold HeightMap.Resize
    rw [if_pos]
    rcases h with h | h
    · exact Or.inl h
    · exact Or.inr (Or.inl h)
  · intro hX hY hZ
    unfold HeightMap.Resize
    rw [if_neg (by push_neg; exact ⟨by omega, by omega, by omega⟩)]
    have h := setNumZeroed_spec m.mapData (X.toNat * Y.toNat)
    exact ⟨rfl, rfl, h.1, h.2.1, h.2.2⟩

/-- C5, witness: `Resize 0 3 1` is a no-op on the 1×1 field holding `5`, and
`Resize 2 1 1` yields a 2-cell array. -/
theorem c5_resize_witness :
    HeightMap.Resize ⟨1, 1, 1, [5]⟩ 0 3 1 = (⟨1, 1, 1, [5]⟩ : HeightMap) ∧
    (HeightMap.Resize ⟨1, 1, 1, [5]⟩ 2 1 1).mapData.length = 2 := by
  constructor
  · exact (c5_resize_amended ⟨1, 1, 1, [5]⟩ 0 3 1).1 (Or.inl (by decide))
  · exact ((c5_resize_amended ⟨1, 1, 1, [5]⟩ 2 1 1).2 (by decide) (by decide)
      (by decide)).2.2.1

/-- C6: on a height-field whose array length matches its dimensions, writing a
value at an in-bounds cell and reading it back returns exactly that value, and
no other in-bounds cell, nor the dimensions, change. -/
theorem c6_set_get_roundtrip (m : HeightMap) (x y x' y' : ℕ) (v : ℚ)
    (hlen : m.mapData.length = m.widthX * m.widthY)
    (hx : x < m.widthX) (hy : y < m.widthY)
    (hx' : x' < m.widthX) (hy' : y' < m.widthY)
    (hne : ¬(x' = x ∧ y' = y)) :
    (m.SetHeight x y v).GetHeight x y = v ∧
    (m.SetHeight x y v).GetHeight x' y' = m.GetHeight x' y' ∧
    (m.SetHeight x y v).widthX = m.widthX ∧
    (m.SetHeight x y v).widthY = m.widthY ∧
    (m.SetHeight x y v).mapData.length = m.mapData.length := by
  have hidx : y * m.widthX + x < m.mapData.length := by
    rw [hlen]; exact index_lt_of_bounds hx hy
  refine ⟨?_, ?_, rfl, rfl, by simp [HeightMap.SetHeight]⟩
  · unfold HeightMap.SetHeight HeightMap.GetHeight
    simp only
    rw [List.getD_eq_getElem?_getD, List.getElem?_set_eq_of_lt v hidx]
    rfl
  · unfold HeightMap.SetHeight HeightMap.GetHeight
    simp only
    have hne' : y * m.widthX + x ≠ y' * m.widthX + x' := by
      intro h
      exact hne (index_inj hx hx' h.symm)
    rw [List.getD_eq_getElem?_getD, List.getD_eq_getElem?_getD,
      List.getElem?_set_ne hne']

/-- C6, witness: on the concrete 2×2 field `[1,2,3,4]`, setting cell `(1,0)`
to `9` and reading it back yields `9`, while cell `(0,1)` is unchanged. -/
theorem c6_set_get_witness :
    (HeightMap.SetHeight ⟨2, 2, 1, [1, 2, 3, 4]⟩ 1 0 9).GetHeight 1 0 = 9 ∧
    (HeightMap.SetHeight ⟨2, 2, 1, [1, 2, 3, 4]⟩ 1 0 9).GetHeight 0 1 =
      HeightMap.GetHeight ⟨2, 2, 1, [1, 2, 3, 4]⟩ 0 1 := by
  have h := c6_set_get_roundtrip ⟨2, 2, 1, [1, 2, 3, 4]⟩ 1 0 0 1 9
    (by decide) (by decide) (by decide) (by decide) (by decide) (by decide)
  exact ⟨h.1, h.2.1⟩

/-- C7, counterexample: the claim says out-of-range reads return `0`; on the
2×2 field `[1,2,3,4]`, the safe wrapper `BPGetHeight 2 0` (x past the width)
reads flat index `0*2+2` inside the array and returns `3`, not `0`. -/
theorem c7_bpgetheight_counterexample :
    HeightMap.BPGetHeight ⟨2, 2, 1, [1, 2, 3, 4]⟩ 2 0 = 3 ∧ (3 : ℚ) ≠ 0 := by
  refine ⟨?_, ?_⟩ <;> decide

/-- C7, amended: the safe wrapper returns `0` for negative coordinates without
touching the array; non-negative coordinates are forwarded unchecked to the
raw accessor, so a coordinate at or past the width reads the flat array at
`y*widthX + x` (possibly a cell of another row) rather than returning `0`. -/
theorem c7_bpgetheight_amended (m : HeightMap) (x y : ℤ) :
    ((x < 0 ∨ y < 0) → m.BPGetHeight x y = 0) ∧
    (0 ≤ x → 0 ≤ y →
      m.BPGetHeight x y = m.mapData.getD (y.toNat * m.widthX + x.toNat) 0) := by
  constructor
  · intro h
    unfold HeightMap.BPGetHeight
    rw [if_pos h]
  · intro hx hy
    unfold HeightMap.BPGetHeight
    rw [if_neg (by push_neg; exact ⟨by omega, by omega⟩)]
    rfl

/-- C7, witness: the negative branch and the forwarding branch of the amended
statement, instantiated on the concrete 2×2 field `[1,2,3,4]`. -/
theorem c7_bpgetheight_witness :
    HeightMap.BPGetHeight ⟨2, 2, 1, [1, 2, 3, 4]⟩ (-1) 0 = 0 ∧
    HeightMap.BPGetHeight ⟨2, 2, 1, [1, 2, 3, 4]⟩ 1 1 =
      List.getD [(1 : ℚ), 2, 3, 4] 3 0 := by
  constructor
  · exact (c7_bpgetheight_amended ⟨2, 2, 1, [1, 2, 3, 4]⟩ (-1) 0).1
      (Or.inl (by decide))
  · exact (c7_bpgetheight_amended ⟨2, 2, 1, [1, 2, 3, 4]⟩ 1 1).2
      (by decide) (by decide)

/-- Length of a `flatMap` whose pieces all have the same length. -/
theorem length_flatMap_const {α β : Type} (l : List α) (f : α → List β) (k : ℕ)
    (h : ∀ a ∈ l, (f a).length = k) : (l.flatMap f).length = l.length * k := by
  induction l with
  | nil => simp
  | cons a l ih =>
    rw [List.flatMap_cons, List.length_append, h a (List.mem_cons_self a l),
      ih (fun b hb => h b (List.mem_cons_of_mem a hb)), List.length_cons]
    ring

/-- The flat index buffer is exactly the triangle list flattened in order. -/
theorem sectionTriangles_eq_flatten (n : ℕ) :
    sectionTriangles n = (sectionTriangleList n).flatMap triVertexIndices := by
  unfold sectionTriangles sectionTriangleList
  rw [List.flatMap_assoc]
  refine List.flatMap_congr ?_
  intro y _
  rw [List.flatMap_assoc]
  refine List.flatMap_congr ?_
  intro x _
  rfl

/-- The triangle list holds `(n-1)*(n-1)*2` triangles. -/
theorem sectionTriangleList_length (n : ℕ) :
    (sectionTriangleList n).length = (n - 1) * (n - 1) * 2 := by
  unfold sectionTriangleList
  have h1 : ∀ y ∈ List.range (n - 1),
      ((List.range (n - 1)).flatMap fun x => [tri1 n x y, tri2 n x y]).length =
        (n - 1) * 2 := by
    intro y _
    rw [length_flatMap_const (List.range (n - 1))
      (fun x => [tri1 n x y, tri2 n x y]) 2 (fun x _ => rfl), List.length_range]
  rw [length_flatMap_const _ _ ((n - 1) * 2) h1, List.length_range]
  ring

/-- The flat index buffer holds `(n-1)*(n-1)*6` indices. -/
theorem sectionTriangles_length (n : ℕ) :
    (sectionTriangles n).length = (n - 1) * (n - 1) * 6 := by
  unfold sectionTriangles
  have h1 : ∀ y ∈ List.range (n - 1),
      ((List.range (n - 1)).flatMap fun x => quadIndices n x y).length =
        (n - 1) * 6 := by
    intro y _
    rw [length_flatMap_const (List.range (n - 1))
      (fun x => quadIndices n x y) 6 (fun x _ => rfl), List.length_range]
  rw [length_flatMap_const _ _ ((n - 1) * 6) h1, List.length_range]
  ring

/-- Flat-index arithmetic: the grid coordinates of `a + b * n` when `a < n`. -/
theorem flatIndex_mod_div {n a b : ℕ} (ha : a < n) :
    (a + b * n) % n = a ∧ (a + b * n) / n = b := by
  have hn : 0 < n := lt_of_le_of_lt (Nat.zero_le a) ha
  constructor
  · rw [Nat.add_mul_mod_self_right, Nat.mod_eq_of_lt ha]
  · rw [Nat.add_mul_div_right _ _ hn, Nat.div_eq_of_lt ha, Nat.zero_add]

/-- Both triangles of every quad `(x, y)` have the same signed double area
`-1` in the world plane, for any per-section world offsets. -/
theorem quad_winding (n x y : ℕ) (ox oy : ℚ) (hn : 2 ≤ n)
    (hx : x < n - 1) (hy : y < n - 1) :
    signedDoubleArea (vertexPlanePos n ox oy (tri1 n x y).1)
      (vertexPlanePos n ox oy (tri1 n x y).2.1)
      (vertexPlanePos n ox oy (tri1 n x y).2.2) = -1 ∧
    signedDoubleArea (vertexPlanePos n ox oy (tri2 n x y).1)
      (vertexPlanePos n ox oy (tri2 n x y).2.1)
      (vertexPlanePos n ox oy (tri2 n x y).2.2) = -1 := by
  have hx1 : x < n := by omega
  have hx2 : 1 + x < n := by omega
  have h00 := flatIndex_mod_div (n := n) (a := x) (b := y) hx1
  have h10 := flatIndex_mod_div (n := n) (a := 1 + x) (b := y) hx2
  have h11 := flatIndex_mod_div (n := n) (a := 1 + x) (b := y + 1) hx2
  have h01 := flatIndex_mod_div (n := n) (a := x) (b := y + 1) hx1
  unfold tri1 tri2 vertexPlanePos signedDoubleArea
  simp only [h00.1, h00.2, h10.1, h10.2, h11.1, h11.2, h01.1, h01.2]
  push_cast
  constructor <;> ring

/-- C2: for every section built from an `n × n` vertex grid (`n ≥ 2`), the
triangle list holds exactly `(n-1)*(n-1)*2` triangles, the flat index buffer
holds exactly `6*(n-1)*(n-1)` indices (matching the `Allocate` preallocation)
and is the triangle list flattened in order, and each quad `(x, y)` is split
into its two triangles along the fixed `v00–v11` diagonal, both wound with
signed double area `-1` (consistent winding). -/
theorem c2_triangle_buffer (n : ℕ) (hn : 2 ≤ n) :
    (sectionTriangleList n).length = (n - 1) * (n - 1) * 2 ∧
    (sectionTriangles n).length = 6 * ((n - 1) * (n - 1)) ∧
    (sectionTriangles n).length = (ComponentDataAllocate n).trianglesLen ∧
    sectionTriangles n = (sectionTriangleList n).flatMap triVertexIndices ∧
    (∀ x y, x < n - 1 → y < n - 1 →
      tri1 n x y ∈ sectionTriangleList n ∧
      tri2 n x y ∈ sectionTriangleList n ∧
      quadIndices n x y =
        triVertexIndices (tri1 n x y) ++ triVertexIndices (tri2 n x y) ∧
      (tri1 n x y).1 = (tri2 n x y).1 ∧
      (tri1 n x y).2.2 = (tri2 n x y).2.1 ∧
      ∀ ox oy : ℚ,
        signedDoubleArea (vertexPlanePos n ox oy (tri1 n x y).1)
          (vertexPlanePos n ox oy (tri1 n x y).2.1)
          (vertexPlanePos n ox oy (tri1 n x y).2.2) = -1 ∧
        signedDoubleArea (vertexPlanePos n ox oy (tri2 n x y).1)
          (vertexPlanePos n ox oy (tri2 n x y).2.1)
          (vertexPlanePos n ox oy (tri2 n x y).2.2) = -1) := by
  refine ⟨sectionTriangleList_length n, ?_, ?_, sectionTriangles_eq_flatten n,
    ?_⟩
  · rw [sectionTriangles_length]; ring
  · rw [sectionTriangles_length]; rfl
  · intro x y hx hy
    have hmem1 : tri1 n x y ∈ sectionTriangleList n := by
      unfold sectionTriangleList
      simp only [List.mem_flatMap, List.mem_range]
      exact ⟨y, hy, x, hx, by simp⟩
    have hmem2 : tri2 n x y ∈ sectionTriangleList n := by
      unfold sectionTriangleList
      simp only [List.mem_flatMap, List.mem_range]
      exact ⟨y, hy, x, hx, by simp⟩
    exact ⟨hmem1, hmem2, rfl, rfl, rfl,
      fun ox oy => quad_winding n x y ox oy hn hx hy⟩

/-- C2, witness: the concrete `3 × 3` section has 8 triangles, a 24-entry
index buffer, and quad `(0, 0)` split with signed double area `-1` twice. -/
theorem c2_triangle_buffer_witness :
    (sectionTriangleList 3).length = 8 ∧ (sectionTriangles 3).length = 24 ∧
    signedDoubleArea (vertexPlanePos 3 0 0 (tri1 3 0 0).1)
      (vertexPlanePos 3 0 0 (tri1 3 0 0).2.1)
      (vertexPlanePos 3 0 0 (tri1 3 0 0).2.2) = -1 := by
  have h := c2_triangle_buffer 3 (by decide)
  refine ⟨h.1, by rw [h.2.1], ?_⟩
  exact ((h.2.2.2.2 0 0 (by decide) (by decide)).2.2.2.2.2 0 0).1

/-- The y-component of the normal the code computes on `cellBump` at `(0,0)`. -/
theorem codeNormalTangent_cellBump_y :
    (codeNormalTangent cellBump 0 0).1.y = 1 / Real.sqrt 5 := by
  simp only [codeNormalTangent, cellBump, vecCross, vecNormalize]
  norm_num
  rw [show Real.sqrt 4 = 2 by
    rw [show (4:ℝ) = 2 ^ 2 by norm_num, Real.sqrt_sq (by norm_num)]]
  norm_num [one_div]
  rw [neg_div, neg_neg, one_div]

/-- The y-component of the normal the claim's formula computes on `cellBump`
at `(0,0)`. -/
theorem claimNormalTangent_cellBump_y :
    (claimNormalTangent cellBump 0 0).1.y = -(1 / Real.sqrt 5) := by
  simp only [claimNormalTangent, cellBump, vecCross, vecNormalize]
  norm_num
  rw [show Real.sqrt 4 = 2 by
    rw [show (4:ℝ) = 2 ^ 2 by norm_num, Real.sqrt_sq (by norm_num)]]
  norm_num [one_div]

/-- C1, counterexample: on the height field that is `1` on the row `y = 1`
and `0` elsewhere, the code's normal at cell `(0,0)` is `(0, 1/√5, 2/√5)`
while the claim's formula (second tangent `(0,2,Δy)` with
`Δy = h(x,y+1) - h(x,y-1)`) gives `(0, -1/√5, 2/√5)`: the outputs differ. -/
theorem c1_normal_counterexample :
    codeNormalTangent cellBump 0 0 ≠ claimNormalTangent cellBump 0 0 := by
  intro heq
  have h1 := codeNormalTangent_cellBump_y
  rw [heq, claimNormalTangent_cellBump_y] at h1
  have h2 : (0:ℝ) < 1 / Real.sqrt 5 := by
    have h5 : (0:ℝ) < Real.sqrt 5 := Real.sqrt_pos.mpr (by norm_num)
    positivity
  linarith

/-- C1, amended: for every height field and every interior cell, the code's
normal/tangent computation forms the tangent vectors `(2, 0, Δx)` and
`(0, 2, -Δy)` (with `Δx = h(x+1,y) - h(x-1,y)`, `Δy = h(x,y+1) - h(x,y-1)`),
normalizes both, and outputs the cross product of the two normalized tangents
as the normal and the normalized first tangent as the tangent. -/
theorem c1_normal_tangent_amended (h : ℤ → ℤ → ℝ) (x y : ℤ) :
    codeNormalTangent h x y = claimNormalTangentAmended h x y := by
  simp only [codeNormalTangent, claimNormalTangentAmended]
  have harg : h x (y - 1) - h x (y + 1) = -(h x (y + 1) - h x (y - 1)) := by
    ring
  rw [harg]

/-- C4: `RebuildMesh` hardcodes the constant `4` and never reads the
`WorkerThreads` property, so the started pool size is `min(4, totalSections)`
rather than `min(configuredThreads, totalSections)`: with `WorkerThreads`
configured to `2` and `4×4` sections the code starts `4` workers, the claim
says `2`. The hardcoded count agrees with the claim only when the configured
count is the default `4`. -/
theorem c4_pool_size_divergence :
    numThreads (4 * 4) = 4 ∧
    claimPoolSize 2 (4 * 4) = 2 ∧
    numThreads (4 * 4) ≠ claimPoolSize 2 (4 * 4) ∧
    (∀ total, numThreads total = claimPoolSize 4 total) := by
  refine ⟨by decide, by decide, by decide, fun total => ?_⟩
  unfold numThreads claimPoolSize
  rcases Nat.lt_or_ge total 4 with h | h
  · rw [if_pos h, Nat.min_eq_right (le_of_lt h)]
  · rw [if_neg (not_lt.mpr h), Nat.min_eq_left h]

/-- `borderCount` distributes over append. -/
theorem borderCount_append (a b : List UpdateEvent) :
    borderCount (a ++ b) = borderCount a + borderCount b :=
  List.countP_append _ _ _

/-- A section event contributes no border count. -/
theorem borderCount_section (x y : ℕ) (ct : Bool) :
    borderCount [UpdateEvent.section x y ct] = 0 := rfl

/-- A border event counts once. -/
theorem borderCount_border : borderCount [UpdateEvent.border] = 1 := rfl

/-- Latch invariant of the `Update` loop: a true `update_border` latch means
no border regeneration has happened yet, a false latch means exactly one. -/
theorem update_fold_latch (W H : ℕ) (marks : ℕ → Bool) (l : List (ℕ × ℕ)) :
    ∀ st : Bool × List UpdateEvent,
    ((st.1 = true ∧ borderCount st.2 = 0) ∨
      (st.1 = false ∧ borderCount st.2 = 1)) →
    (((l.foldl (updateCell W H marks) st).1 = true ∧
        borderCount (l.foldl (updateCell W H marks) st).2 = 0) ∨
      ((l.foldl (updateCell W H marks) st).1 = false ∧
        borderCount (l.foldl (updateCell W H marks) st).2 = 1)) := by
  induction l with
  | nil => exact fun st h => h
  | cons a l ih =>
    intro st h
    rw [List.foldl_cons]
    apply ih
    unfold updateCell
    by_cases hm : marks (a.2 * W + a.1)
    · rw [if_pos hm]
      by_cases hl : st.1 && onEdge W H a.1 a.2
      · rw [if_pos hl]
        simp only [Bool.and_eq_true] at hl
        rcases h with ⟨_, h2⟩ | ⟨h1, _⟩
        · right
          refine ⟨rfl, ?_⟩
          simp only [borderCount_append, borderCount_section,
            borderCount_border, h2]
        · rw [h1] at hl
          simp at hl
      · rw [if_neg hl]
        rcases h with ⟨h1, h2⟩ | ⟨h1, h2⟩
        · left
          exact ⟨h1, by
            simp only [borderCount_append, borderCount_section, h2]⟩
        · right
          exact ⟨h1, by
            simp only [borderCount_append, borderCount_section, h2]⟩
    · rw [if_neg hm]
      exact h

/-- If no marked cell visited by the loop lies on the edge, the fold emits no
border event and leaves the latch unchanged. -/
theorem update_fold_no_edge (W H : ℕ) (marks : ℕ → Bool) (l : List (ℕ × ℕ)) :
    ∀ st : Bool × List UpdateEvent,
    (∀ xy ∈ l, marks (xy.2 * W + xy.1) = true → onEdge W H xy.1 xy.2 = false) →
    (l.foldl (updateCell W H marks) st).1 = st.1 ∧
    borderCount (l.foldl (updateCell W H marks) st).2 = borderCount st.2 := by
  induction l with
  | nil => exact fun st _ => ⟨rfl, rfl⟩
  | cons a l ih =>
    intro st h
    rw [List.foldl_cons]
    have htail := ih (updateCell W H marks st a)
      (fun xy hxy => h xy (List.mem_cons_of_mem a hxy))
    have hstep : (updateCell W H marks st a).1 = st.1 ∧
        borderCount (updateCell W H marks st a).2 = borderCount st.2 := by
      unfold updateCell
      by_cases hm : marks (a.2 * W + a.1)
      · rw [if_pos hm]
        have hedge := h a (List.mem_cons_self a l) hm
        rw [if_neg (by rw [hedge]; simp)]
        exact ⟨rfl, by simp only [borderCount_append, borderCount_section,
          Nat.add_zero]⟩
      · rw [if_neg hm]
        exact ⟨rfl, rfl⟩
    exact ⟨htail.1.trans hstep.1, htail.2.trans hstep.2⟩

/-- Every section event the fold appends carries `CreateTriangles = false`. -/
theorem update_fold_sections (W H : ℕ) (marks : ℕ → Bool) (l : List (ℕ × ℕ)) :
    ∀ st : Bool × List UpdateEvent,
    (∀ x y ct, UpdateEvent.section x y ct ∈ st.2 → ct = false) →
    ∀ x y ct, UpdateEvent.section x y ct ∈
      (l.foldl (updateCell W H marks) st).2 → ct = false := by
  induction l with
  | nil => exact fun st h => h
  | cons a l ih =>
    intro st h
    rw [List.foldl_cons]
    apply ih
    intro x y ct hmem
    unfold updateCell at hmem
    by_cases hm : marks (a.2 * W + a.1)
    · rw [if_pos hm] at hmem
      by_cases hl : st.1 && onEdge W H a.1 a.2
      · rw [if_pos hl] at hmem
        simp only [List.mem_append, List.mem_singleton] at hmem
        rcases hmem with (hmem | hmem) | hmem
        · exact h x y ct hmem
        · cases hmem
          rfl
        · cases hmem
      · rw [if_neg hl] at hmem
        simp only [List.mem_append, List.mem_singleton] at hmem
        rcases hmem with hmem | hmem
        · exact h x y ct hmem
        · cases hmem
          rfl
    · rw [if_neg hm] at hmem
      exact h x y ct hmem

/-- Cells visited by the `Update` loop are in bounds. -/
theorem mem_updateOrder {W H : ℕ} {xy : ℕ × ℕ} (h : xy ∈ updateOrder W H) :
    xy.1 < W ∧ xy.2 < H := by
  unfold updateOrder at h
  simp only [List.mem_flatMap, List.mem_map, List.mem_range] at h
  obtain ⟨x, hx, y, hy, rfl⟩ := h
  exact ⟨hx, hy⟩

/-- C10: in one `ATerrain::Update` call, the border mesh is regenerated at
most once no matter how many edge sections are marked; it is not regenerated
at all when only interior sections are marked; and every marked section is
rebuilt with `CreateTriangles = false` (no triangle index regeneration). -/
theorem c10_update_border_once (W H : ℕ) (marks : ℕ → Bool) :
    borderCount (updateRun W H marks) ≤ 1 ∧
    ((∀ x y, x < W → y < H → marks (y * W + x) = true →
        onEdge W H x y = false) →
      borderCount (updateRun W H marks) = 0) ∧
    (∀ x y ct, UpdateEvent.section x y ct ∈ updateRun W H marks →
      ct = false) := by
  refine ⟨?_, ?_, ?_⟩
  · have h := update_fold_latch W H marks (updateOrder W H) (true, [])
      (Or.inl ⟨rfl, rfl⟩)
    unfold updateRun
    rcases h with ⟨_, h2⟩ | ⟨_, h2⟩ <;> omega
  · intro hint
    have h := update_fold_no_edge W H marks (updateOrder W H) (true, [])
      (fun xy hxy hm => hint xy.1 xy.2 (mem_updateOrder hxy).1
        (mem_updateOrder hxy).2 hm)
    unfold updateRun
    exact h.2
  · exact update_fold_sections W H marks (updateOrder W H) (true, [])
      (fun x y ct h => by cases h)

/-- A `flatMap` of two-element blocks over `List.range` has `2 * len`
elements. -/
theorem length_flatMap_pairs {β : Type} (len : ℕ) (F : ℕ → List β)
    (hF : ∀ i ∈ List.range len, (F i).length = 2) :
    ((List.range len).flatMap F).length = 2 * len := by
  rw [length_flatMap_const _ _ 2 hF, List.length_range]
  ring

/-- A `flatMap` of six-element blocks over `List.range` has `len * 6`
elements. -/
theorem length_flatMap_sixes {β : Type} (len : ℕ) (F : ℕ → List β)
    (hF : ∀ i ∈ List.range len, (F i).length = 6) :
    ((List.range len).flatMap F).length = len * 6 := by
  rw [length_flatMap_const _ _ 6 hF, List.length_range]

/-- Element access in a `flatMap` of two-element blocks: block `j` provides
the elements at flat indices `2j` and `2j + 1`. -/
theorem flatMap_pair_getElem {β : Type} (f g : ℕ → β) :
    ∀ len j : ℕ, j < len →
    ((List.range len).flatMap fun i => [f i, g i])[2 * j]? = some (f j) ∧
    ((List.range len).flatMap fun i => [f i, g i])[2 * j + 1]? = some (g j) := by
  intro len
  induction len with
  | zero => omega
  | succ n ih =>
    intro j hj
    rw [List.range_succ, List.flatMap_append, List.flatMap_cons,
      List.flatMap_nil, List.append_nil]
    have hlen : ((List.range n).flatMap fun i => [f i, g i]).length = 2 * n :=
      length_flatMap_pairs n _ (fun a _ => rfl)
    rcases Nat.lt_or_ge j n with h | h
    · have hih := ih j h
      constructor
      · rw [List.getElem?_append, hlen, if_pos (by omega)]
        exact hih.1
      · rw [List.getElem?_append, hlen, if_pos (by omega)]
        exact hih.2
    · obtain rfl : n = j := by omega
      constructor
      · rw [List.getElem?_append, hlen, if_neg (by omega)]
        rw [show 2 * n - 2 * n = 0 from by omega]
        rfl
      · rw [List.getElem?_append, hlen, if_neg (by omega)]
        rw [show 2 * n + 1 - 2 * n = 1 from by omega]
        rfl

/-- The `-X` side satisfies the claim's per-side description with edge length
`widthY - 2`, normal `(-1,0,0)` and edge cells `(1, y+1)`. -/
theorem borderEdgeNegX_claim (m : HeightMap) :
    borderEdgeClaim (borderEdgeNegX m) (m.widthY - 2) (-1, 0, 0)
      (fun y => m.GetHeight 1 (y + 1)) := by
  unfold borderEdgeClaim borderEdgeNegX
  simp only
  refine ⟨length_flatMap_pairs _ _ (fun a _ => rfl),
    length_flatMap_pairs _ _ (fun a _ => rfl), ?_, ?_, ?_⟩
  · intro v hv
    simp only [List.mem_flatMap, List.mem_cons, List.not_mem_nil,
      or_false] at hv
    obtain ⟨i, _, hv | hv⟩ := hv <;> exact hv
  · refine Eq.trans (length_flatMap_sixes _ _ ?_) (by ring)
    intro a _
    rfl
  · intro j hj
    have h := flatMap_pair_getElem
      (fun y => ((-((((m.widthX - 2 : ℕ) : ℚ) - 1) / 2)),
        (((m.widthY - 2 : ℕ) : ℚ) - 1) / 2 - y, (-200 : ℚ)))
      (fun y => ((-((((m.widthX - 2 : ℕ) : ℚ) - 1) / 2)),
        (((m.widthY - 2 : ℕ) : ℚ) - 1) / 2 - y, m.GetHeight 1 (y + 1)))
      (m.widthY - 2) j hj
    exact ⟨(congrArg (Option.map fun v => v.2.2) h.1).trans rfl,
      (congrArg (Option.map fun v => v.2.2) h.2).trans rfl⟩

/-- The `+X` side satisfies the claim's per-side description with edge length
`widthY - 2`, normal `(1,0,0)` and edge cells `(widthX - 2, y+1)`. -/
theorem borderEdgePosX_claim (m : HeightMap) (base : ℕ) :
    borderEdgeClaim (borderEdgePosX m base) (m.widthY - 2) (1, 0, 0)
      (fun y => m.GetHeight (m.widthX - 2) (y + 1)) := by
  unfold borderEdgeClaim borderEdgePosX
  simp only
  refine ⟨length_flatMap_pairs _ _ (fun a _ => rfl),
    length_flatMap_pairs _ _ (fun a _ => rfl), ?_, ?_, ?_⟩
  · intro v hv
    simp only [List.mem_flatMap, List.mem_cons, List.not_mem_nil,
      or_false] at hv
    obtain ⟨i, _, hv | hv⟩ := hv <;> exact hv
  · refine Eq.trans (length_flatMap_sixes _ _ ?_) (by ring)
    intro a _
    rfl
  · intro j hj
    have h := flatMap_pair_getElem
      (fun y => (((((m.widthX - 2 : ℕ) : ℚ) - 1) / 2),
        (((m.widthY - 2 : ℕ) : ℚ) - 1) / 2 - y, (-200 : ℚ)))
      (fun y => (((((m.widthX - 2 : ℕ) : ℚ) - 1) / 2),
        (((m.widthY - 2 : ℕ) : ℚ) - 1) / 2 - y,
        m.GetHeight (m.widthX - 2) (y + 1)))
      (m.widthY - 2) j hj
    exact ⟨(congrArg (Option.map fun v => v.2.2) h.1).trans rfl,
      (congrArg (Option.map fun v => v.2.2) h.2).trans rfl⟩

/-- The `+Y` side satisfies the claim's per-side description with edge length
`widthX - 2`, normal `(0,1,0)` and edge cells `(x+1, 1)`. -/
theorem borderEdgePosY_claim (m : HeightMap) (base : ℕ) :
    borderEdgeClaim (borderEdgePosY m base) (m.widthX - 2) (0, 1, 0)
      (fun x => m.GetHeight (x + 1) 1) := by
  unfold borderEdgeClaim borderEdgePosY
  simp only
  refine ⟨length_flatMap_pairs _ _ (fun a _ => rfl),
    length_flatMap_pairs _ _ (fun a _ => rfl), ?_, ?_, ?_⟩
  · intro v hv
    simp only [List.mem_flatMap, List.mem_cons, List.not_mem_nil,
      or_false] at hv
    obtain ⟨i, _, hv | hv⟩ := hv <;> exact hv
  · refine Eq.trans (length_flatMap_sixes _ _ ?_) (by ring)
    intro a _
    rfl
  · intro j hj
    have h := flatMap_pair_getElem
      (fun x => ((-((((m.widthX - 2 : ℕ) : ℚ) - 1) / 2) + x),
        (((m.widthY - 2 : ℕ) : ℚ) - 1) / 2, (-200 : ℚ)))
      (fun x => ((-((((m.widthX - 2 : ℕ) : ℚ) - 1) / 2) + x),
        (((m.widthY - 2 : ℕ) : ℚ) - 1) / 2, m.GetHeight (x + 1) 1))
      (m.widthX - 2) j hj
    exact ⟨(congrArg (Option.map fun v => v.2.2) h.1).trans rfl,
      (congrArg (Option.map fun v => v.2.2) h.2).trans rfl⟩

/-- The `-Y` side satisfies the claim's per-side description with edge length
`widthX - 2`, normal `(0,-1,0)` and edge cells `(x+1, widthY - 2)`. -/
theorem borderEdgeNegY_claim (m : HeightMap) (base : ℕ) :
    borderEdgeClaim (borderEdgeNegY m base) (m.widthX - 2) (0, -1, 0)
      (fun x => m.GetHeight (x + 1) (m.widthY - 2)) := by
  unfold borderEdgeClaim borderEdgeNegY
  simp only
  refine ⟨length_flatMap_pairs _ _ (fun a _ => rfl),
    length_flatMap_pairs _ _ (fun a _ => rfl), ?_, ?_, ?_⟩
  · intro v hv
    simp only [List.mem_flatMap, List.mem_cons, List.not_mem_nil,
      or_false] at hv
    obtain ⟨i, _, hv | hv⟩ := hv <;> exact hv
  · refine Eq.trans (length_flatMap_sixes _ _ ?_) (by ring)
    intro a _
    rfl
  · intro j hj
    have h := flatMap_pair_getElem
      (fun x => ((-((((m.widthX - 2 : ℕ) : ℚ) - 1) / 2) + x),
        -((((m.widthY - 2 : ℕ) : ℚ) - 1) / 2), (-200 : ℚ)))
      (fun x => ((-((((m.widthX - 2 : ℕ) : ℚ) - 1) / 2) + x),
        -((((m.widthY - 2 : ℕ) : ℚ) - 1) / 2),
        m.GetHeight (x + 1) (m.widthY - 2)))
      (m.widthX - 2) j hj
    exact ⟨(congrArg (Option.map fun v => v.2.2) h.1).trans rfl,
      (congrArg (Option.map fun v => v.2.2) h.2).trans rfl⟩

/-- C8: each of the four border/skirt edges contributes exactly
`2 * edgeLength` vertices in bottom/top pairs (bottom at the fixed
`z = -200`, top at the terrain height of the edge cell) and
`(edgeLength - 1) * 2` triangles, every vertex of a side carrying that
side's fixed outward normal `(-1,0,0)`, `(1,0,0)`, `(0,1,0)` or `(0,-1,0)`;
the full border build is the four edges appended in source order. -/
theorem c8_border_skirt (m : HeightMap) :
    borderEdgeClaim (borderEdgeNegX m) (m.widthY - 2) (-1, 0, 0)
      (fun y => m.GetHeight 1 (y + 1)) ∧
    borderEdgeClaim (borderEdgePosX m (2 * (m.widthY - 2))) (m.widthY - 2)
      (1, 0, 0) (fun y => m.GetHeight (m.widthX - 2) (y + 1)) ∧
    borderEdgeClaim (borderEdgePosY m (2 * (m.widthY - 2) + 2 * (m.widthY - 2)))
      (m.widthX - 2) (0, 1, 0) (fun x => m.GetHeight (x + 1) 1) ∧
    borderEdgeClaim (borderEdgeNegY m
        (2 * (m.widthY - 2) + 2 * (m.widthY - 2) + 2 * (m.widthX - 2)))
      (m.widthX - 2) (0, -1, 0)
      (fun x => m.GetHeight (x + 1) (m.widthY - 2)) ∧
    (GenerateBorderSection m).vertices =
      (borderEdgeNegX m).vertices ++
      (borderEdgePosX m (2 * (m.widthY - 2))).vertices ++
      (borderEdgePosY m (2 * (m.widthY - 2) + 2 * (m.widthY - 2))).vertices ++
      (borderEdgeNegY m
        (2 * (m.widthY - 2) + 2 * (m.widthY - 2) + 2 * (m.widthX - 2))).vertices ∧
    (GenerateBorderSection m).vertices.length =
      2 * (m.widthY - 2) + 2 * (m.widthY - 2) +
        (2 * (m.widthX - 2) + 2 * (m.widthX - 2)) := by
  refine ⟨borderEdgeNegX_claim m, borderEdgePosX_claim m _,
    borderEdgePosY_claim m _, borderEdgeNegY_claim m _, rfl, ?_⟩
  have h1 := (borderEdgeNegX_claim m).1
  have h2 := (borderEdgePosX_claim m (2 * (m.widthY - 2))).1
  have h3 := (borderEdgePosY_claim m
    (2 * (m.widthY - 2) + 2 * (m.widthY - 2))).1
  have h4 := (borderEdgeNegY_claim m
    (2 * (m.widthY - 2) + 2 * (m.widthY - 2) + 2 * (m.widthX - 2))).1
  show ((borderEdgeNegX m).vertices ++ _ ++ _ ++ _).length = _
  simp only [List.length_append, h1, h2, h3, h4]
  omega

/-- C8, witness: on a concrete 5×4 field the `-X` edge carries `2*(4-2) = 4`
vertices and the `+Y` edge `2*(5-2) = 6`, extracted through the edge
descriptions. -/
theorem c8_border_skirt_witness :
    (borderEdgeNegX ⟨5, 4, 1, List.replicate 20 0⟩).vertices.length = 4 ∧
    (borderEdgePosY ⟨5, 4, 1, List.replicate 20 0⟩ 8).vertices.length = 6 := by
  exact ⟨(c8_border_skirt ⟨5, 4, 1, List.replicate 20 0⟩).1.1,
    (c8_border_skirt ⟨5, 4, 1, List.replicate 20 0⟩).2.2.1.1⟩

/-- C10, witness: on a 3×3 terrain with only the interior section `(1,1)`
marked, `Update` performs no border regeneration; with section `(0,0)`
marked the event list is the section update followed by one border update. -/
theorem c10_update_border_witness :
    borderCount (updateRun 3 3 (fun i => i == 4)) = 0 ∧
    borderCount (updateRun 3 3 (fun i => i == 0)) ≤ 1 := by
  constructor
  · refine (c10_update_border_once 3 3 (fun i => i == 4)).2.1 ?_
    intro x y hx hy hm
    have h4 : y * 3 + x = 4 := by simpa using hm
    have hx1 : x = 1 := by omega
    have hy1 : y = 1 := by omega
    subst hx1
    subst hy1
    rfl
  · exact (c10_update_border_once 3 3 (fun i => i == 0)).1

/-- Stepping the `(section_x, section_y)` counter equals incrementing the
flat row-major index. -/
theorem sectionAdvance_linear (W c : ℕ) (hW : 0 < W) :
    sectionAdvance W (c % W, c / W) = ((c + 1) % W, (c + 1) / W) := by
  unfold sectionAdvance
  simp only
  have hmod : c % W < W := Nat.mod_lt c hW
  by_cases h : W ≤ c % W + 1
  · rw [if_pos h]
    have hc1 : c + 1 = (c / W + 1) * W := by
      have hdm : c / W * W + c % W = c := by
        rw [Nat.mul_comm (c / W) W]
        exact Nat.div_add_mod c W
      rw [Nat.add_mul, Nat.one_mul]
      omega
    have h1 : (c + 1) % W = 0 := by rw [hc1, Nat.mul_mod_left]
    have h2 : (c + 1) / W = c / W + 1 := by rw [hc1, Nat.mul_div_cancel _ hW]
    rw [h1, h2]
  · rw [if_neg h]
    have hlt : c % W + 1 < W := by omega
    have hc1 : c + 1 = c / W * W + (c % W + 1) := by
      have hdm : c / W * W + c % W = c := by
        rw [Nat.mul_comm (c / W) W]
        exact Nat.div_add_mod c W
      omega
    have h1 : (c + 1) % W = c % W + 1 := by
      rw [hc1, Nat.mul_comm, Nat.mul_add_mod, Nat.mod_eq_of_lt hlt]
    have h2 : (c + 1) / W = c / W := by
      rw [hc1, Nat.mul_comm, Nat.mul_add_div hW, Nat.div_eq_of_lt hlt,
        Nat.add_zero]
    rw [h1, h2]

/-- Replacing a list element is, up to permutation, removing it and
prepending the new value. -/
theorem perm_set_cons_eraseIdx {α : Type} (l : List α) (i : ℕ)
    (h : i < l.length) (b : α) : (l.set i b).Perm (b :: l.eraseIdx i) := by
  rw [List.set_eq_take_cons_drop b h, List.eraseIdx_eq_take_drop_succ]
  exact List.perm_middle

/-- A list is, up to permutation, its `i`-th element prepended to the list
with that element removed. -/
theorem perm_get_cons_eraseIdx {α : Type} (l : List α) (i : ℕ)
    (h : i < l.length) : l.Perm (l.get ⟨i, h⟩ :: l.eraseIdx i) := by
  conv_lhs => rw [← List.take_append_drop i l]
  rw [List.drop_eq_getElem_cons h, List.eraseIdx_eq_take_drop_succ]
  exact List.perm_middle

/-- `map` commutes with `eraseIdx`. -/
theorem map_eraseIdx_comm {α β : Type} (f : α → β) (l : List α) (i : ℕ) :
    (l.eraseIdx i).map f = (l.map f).eraseIdx i := by
  rw [List.eraseIdx_eq_take_drop_succ, List.eraseIdx_eq_take_drop_succ,
    List.map_append, List.map_take, List.map_drop]

/-- The initial scheduler state satisfies the invariant. -/
theorem schedInv_init (W H : ℕ) : SchedInv (W * H) (schedInit W H) := by
  refine ⟨?_, ?_, ?_, ?_, ?_, ?_, ?_⟩
  · simp [schedInit]
  · show numThreads (W * H) ≤ W * H
    unfold numThreads
    split <;> omega
  · simp only [schedInit, List.nil_append, List.map_map]
    have : (SchedWorker.sec ∘ fun j => SchedWorker.mk j [j]) = id := rfl
    rw [this, List.map_id]
  · intro w hw
    simp only [schedInit, List.mem_map, List.mem_range] at hw
    obtain ⟨j, hj, rfl⟩ := hw
    exact hj
  · intro w hw
    simp only [schedInit, List.mem_map, List.mem_range] at hw
    obtain ⟨j, hj, rfl⟩ := hw
    exact ⟨List.chain'_singleton j, rfl⟩
  · intro w hw
    simp [schedInit] at hw
  · intro he
    have : numThreads (W * H) = 0 := by
      simpa [schedInit] using congrArg List.length he
    unfold numThreads at this
    show W * H ≤ numThreads (W * H)
    unfold numThreads
    split at this <;> omega

/-- One scheduler step preserves the invariant. -/
theorem schedInv_step {T : ℕ} {s t : SchedState} (hs : SchedInv T s)
    (hstep : SchedStep T s t) : SchedInv T t := by
  cases hstep with
  | assign i h hlt =>
    have hmem : s.workers.get ⟨i, h⟩ ∈ s.workers := List.get_mem _ _ h
    have hsec : (s.workers.get ⟨i, h⟩).sec < s.assigned :=
      hs.wsec _ hmem
    have hperm1 : (s.workers.map SchedWorker.sec).Perm
        ((s.workers.get ⟨i, h⟩).sec ::
          (s.workers.eraseIdx i).map SchedWorker.sec) :=
      (perm_get_cons_eraseIdx s.workers i h).map SchedWorker.sec
    have hperm2 : ((s.workers.set i
        ⟨s.assigned, (s.workers.get ⟨i, h⟩).hist ++ [s.assigned]⟩).map
          SchedWorker.sec).Perm
        (s.assigned :: (s.workers.eraseIdx i).map SchedWorker.sec) :=
      (perm_set_cons_eraseIdx s.workers i h _).map SchedWorker.sec
    refine ⟨?_, by show s.assigned + 1 ≤ T; omega, ?_, ?_, ?_, hs.rhist, ?_⟩
    · simp only [List.length_append, List.length_set,
        List.length_cons, List.length_nil]
      have := hs.count
      omega
    · refine List.Perm.trans (List.Perm.append_left _ hperm2) ?_
      have hmid : s.delivered ++ [(s.workers.get ⟨i, h⟩).sec] ++
          (s.assigned :: (s.workers.eraseIdx i).map SchedWorker.sec) =
          s.delivered ++ ((s.workers.get ⟨i, h⟩).sec :: s.assigned ::
            (s.workers.eraseIdx i).map SchedWorker.sec) := by
        rw [List.append_assoc]
        rfl
      rw [hmid]
      refine List.Perm.trans (List.Perm.append_left _
        (List.Perm.swap s.assigned (s.workers.get ⟨i, h⟩).sec _)) ?_
      refine List.Perm.trans List.perm_middle ?_
      refine List.Perm.trans (List.Perm.cons _ (List.Perm.trans
        (List.Perm.append_left _ hperm1.symm) hs.perm)) ?_
      rw [List.range_succ]
      exact (List.perm_append_singleton _ _).symm
    · intro w' hw'
      have hpw : (s.workers.set i
          ⟨s.assigned, (s.workers.get ⟨i, h⟩).hist ++ [s.assigned]⟩).Perm
          (⟨s.assigned, (s.workers.get ⟨i, h⟩).hist ++ [s.assigned]⟩ ::
            s.workers.eraseIdx i) :=
        perm_set_cons_eraseIdx s.workers i h _
      rcases List.mem_cons.mp (hpw.mem_iff.mp hw') with rfl | hw'
      · exact Nat.lt_succ_self _
      · exact Nat.lt_succ_of_lt
          (hs.wsec w' (List.eraseIdx_subset _ _ hw'))
    · intro w' hw'
      have hpw : (s.workers.set i
          ⟨s.assigned, (s.workers.get ⟨i, h⟩).hist ++ [s.assigned]⟩).Perm
          (⟨s.assigned, (s.workers.get ⟨i, h⟩).hist ++ [s.assigned]⟩ ::
            s.workers.eraseIdx i) :=
        perm_set_cons_eraseIdx s.workers i h _
      rcases List.mem_cons.mp (hpw.mem_iff.mp hw') with rfl | hw'
      · constructor
        · rw [List.chain'_append]
          refine ⟨(hs.whist _ hmem).1, List.chain'_singleton _, ?_⟩
          intro x hx y hy
          simp only [List.head?_cons, Option.mem_def, Option.some.injEq] at hy
          subst hy
          rw [(hs.whist _ hmem).2] at hx
          simp only [Option.mem_def, Option.some.injEq] at hx
          subst hx
          exact hsec
        · exact List.getLast?_concat _
      · exact hs.whist w' (List.eraseIdx_subset _ _ hw')
    · intro he
      have hlen := congrArg List.length he
      simp only [List.length_set, List.length_nil] at hlen
      omega
  | retire i h hge =>
    have hmem : s.workers.get ⟨i, h⟩ ∈ s.workers := List.get_mem _ _ h
    have hperm1 : (s.workers.map SchedWorker.sec).Perm
        ((s.workers.get ⟨i, h⟩).sec ::
          (s.workers.eraseIdx i).map SchedWorker.sec) :=
      (perm_get_cons_eraseIdx s.workers i h).map SchedWorker.sec
    refine ⟨?_, hs.le, ?_, ?_, ?_, ?_, fun _ => hge⟩
    · simp only [List.length_append, List.length_cons, List.length_nil]
      have hc := hs.count
      have he := List.length_eraseIdx_add_one h
      omega
    · have hmid : s.delivered ++ [(s.workers.get ⟨i, h⟩).sec] ++
          (s.workers.eraseIdx i).map SchedWorker.sec =
          s.delivered ++ ((s.workers.get ⟨i, h⟩).sec ::
            (s.workers.eraseIdx i).map SchedWorker.sec) := by
        rw [List.append_assoc]
        rfl
      rw [hmid]
      exact List.Perm.trans (List.Perm.append_left _ hperm1.symm) hs.perm
    · intro w' hw'
      exact hs.wsec w' (List.eraseIdx_subset _ _ hw')
    · intro w' hw'
      exact hs.whist w' (List.eraseIdx_subset _ _ hw')
    · intro w' hw'
      rcases List.mem_append.mp hw' with hw' | hw'
      · exact hs.rhist w' hw'
      · rw [List.mem_singleton] at hw'
        subst hw'
        exact (hs.whist _ hmem).1

/-- Every scheduler step strictly decreases the termination measure. -/
theorem schedMeasure_step {T : ℕ} {s t : SchedState} (hs : SchedInv T s)
    (hstep : SchedStep T s t) : schedMeasure T t < schedMeasure T s := by
  cases hstep with
  | assign i h hlt =>
    show T - (s.delivered ++ [(s.workers.get ⟨i, h⟩).sec]).length +
      (s.workers.set i _).length < T - s.delivered.length + s.workers.length
    simp only [List.length_append, List.length_set, List.length_cons,
      List.length_nil]
    have hc := hs.count
    omega
  | retire i h hge =>
    show T - (s.delivered ++ [(s.workers.get ⟨i, h⟩).sec]).length +
      (s.workers.eraseIdx i).length < T - s.delivered.length +
        s.workers.length
    simp only [List.length_append, List.length_cons, List.length_nil]
    have he := List.length_eraseIdx_add_one h
    omega

/-- There is no strictly decreasing sequence of naturals. -/
theorem no_strict_descent (g : ℕ → ℕ) (hg : ∀ n, g (n + 1) < g n) :
    False := by
  have h : ∀ n, g n + n ≤ g 0 := by
    intro n
    induction n with
    | zero => omega
    | succ k ih =>
      have := hg k
      omega
  have := h (g 0 + 1)
  omega

/-- The invariant holds in every state the polling loop can reach. -/
theorem schedInv_reachable {W H : ℕ} {s : SchedState}
    (h : Relation.ReflTransGen (SchedStep (W * H)) (schedInit W H) s) :
    SchedInv (W * H) s := by
  induction h with
  | refl => exact schedInv_init W H
  | tail hr hstep ih => exact schedInv_step ih hstep

/-- C3: for every terrain with at least one section in each direction, the
polling loop of `RebuildMesh` terminates (no infinite run of scheduler
steps exists), and in any reachable stuck state all workers are retired,
the delivered sections are exactly `0, ..., XWidth*YWidth - 1` each exactly
once (a permutation of the full range, without duplicates, covering every
section), and every worker's assignment history is strictly increasing in
row-major order. -/
theorem c3_scheduler (W H : ℕ) (hW : 1 ≤ W) (hH : 1 ≤ H) :
    (∀ f : ℕ → SchedState, f 0 = schedInit W H →
      ¬(∀ n, SchedStep (W * H) (f n) (f (n + 1)))) ∧
    (∀ s, Relation.ReflTransGen (SchedStep (W * H)) (schedInit W H) s →
      (¬∃ t, SchedStep (W * H) s t) →
      s.workers = [] ∧
      s.delivered.Perm (List.range (W * H)) ∧
      s.delivered.Nodup ∧
      (∀ n, n < W * H → n ∈ s.delivered) ∧
      (∀ w ∈ s.retired, w.hist.Chain' (· < ·))) := by
  constructor
  · intro f hf0 hstep
    have hinv : ∀ n, SchedInv (W * H) (f n) := by
      intro n
      induction n with
      | zero =>
        rw [hf0]
        exact schedInv_init W H
      | succ k ih => exact schedInv_step ih (hstep k)
    exact no_strict_descent (fun n => schedMeasure (W * H) (f n))
      (fun n => schedMeasure_step (hinv n) (hstep n))
  · intro s hreach hstuck
    have hinv := schedInv_reachable hreach
    have hempty : s.workers = [] := by
      by_contra hne
      have hlen : 0 < s.workers.length := List.length_pos.mpr hne
      rcases Nat.lt_or_ge s.assigned (W * H) with hlt | hge
      · exact hstuck ⟨_, SchedStep.assign s 0 hlen hlt⟩
      · exact hstuck ⟨_, SchedStep.retire s 0 hlen hge⟩
    have hT : s.assigned = W * H :=
      le_antisymm hinv.le (hinv.empty_done hempty)
    have hperm : s.delivered.Perm (List.range (W * H)) := by
      have hp := hinv.perm
      rw [hempty] at hp
      simpa [hT] using hp
    refine ⟨hempty, hperm, hperm.nodup_iff.mpr (List.nodup_range _),
      fun n hn => hperm.mem_iff.mpr (List.mem_range.mpr hn), hinv.rhist⟩

/-- C3, witness: on the 1×1 terrain, any stuck reachable scheduler state has
delivered exactly section 0 once. -/
theorem c3_scheduler_witness :
    (1 : ℕ) ≤ 1 ∧
    ∀ s, Relation.ReflTransGen (SchedStep (1 * 1)) (schedInit 1 1) s →
      (¬∃ t, SchedStep (1 * 1) s t) →
      s.delivered.Perm (List.range (1 * 1)) :=
  ⟨by decide, fun s h hs =>
    ((c3_scheduler 1 1 (by decide) (by decide)).2 s h hs).2.1⟩

/-- C9: two noise generators of the same kind constructed with identical
integer seed and identical parameters and scaled identically produce
bit-identical outputs: the plasma value grids, the bicubic plasma samples
and the Perlin gradient-noise samples agree at every coordinate (two-run
determinism; in this pure model, construction and sampling are functions
of the seed and parameters only). -/
theorem c9_noise_determinism (size1 size2 seed1 seed2 : ℕ)
    (hsize : size1 = size2) (hseed : seed1 = seed2)
    (gw1 gw2 gh1 gh2 gseed1 gseed2 : ℕ) (hgw : gw1 = gw2) (hgh : gh1 = gh2)
    (hgseed : gseed1 = gseed2) (w h : ℕ) :
    (∀ x y : ℕ, (PlasmaNoise.make size1 seed1).getValue x y =
      (PlasmaNoise.make size2 seed2).getValue x y) ∧
    (∀ x y : ℚ, ((PlasmaNoise.make size1 seed1).scale w h).cubic x y =
      ((PlasmaNoise.make size2 seed2).scale w h).cubic x y) ∧
    (∀ x y : ℚ, ((GradientNoise.make gw1 gh1 gseed1).scale w h).perlin x y =
      ((GradientNoise.make gw2 gh2 gseed2).scale w h).perlin x y) := by
  subst hsize
  subst hseed
  subst hgw
  subst hgh
  subst hgseed
  exact ⟨fun _ _ => rfl, fun _ _ => rfl, fun _ _ => rfl⟩

/-- C9, witness: the determinism theorem applied to two `PlasmaNoise`
instances with seed 7 and size 2 and two `GradientNoise` instances with
seed 11, scaled to an 8×8 field, sampled at concrete points. -/
theorem c9_noise_determinism_witness :
    (PlasmaNoise.make 2 7).getValue 1 2 = (PlasmaNoise.make 2 7).getValue 1 2 ∧
    ((GradientNoise.make 5 5 11).scale 8 8).perlin (3 / 2) (1 / 2) =
      ((GradientNoise.make 5 5 11).scale 8 8).perlin (3 / 2) (1 / 2) :=
  ⟨(c9_noise_determinism 2 2 7 7 rfl rfl 5 5 5 5 11 11 rfl rfl rfl 8 8).1 1 2,
    (c9_noise_determinism 2 2 7 7 rfl rfl 5 5 5 5 11 11 rfl rfl rfl 8 8).2.2
      (3 / 2) (1 / 2)⟩

end DynamicTerrain
